import Mathlib

/-!
Shallow embedding of `_filterGcode` from `src/TempOffsetPlugin.py`
(TempOffsetPlugin, commit as shipped in this repository).

The Python function consumes `gcode_dict : mapping plate_id -> list of
g-code segment strings` together with the float setting `temp_offset`
and rewrites at most one `M104` temperature line per segment, marking a
processed plate by appending `";TEMPOFFSETPROCESSED\n"` to segment 0.

Embedding choices:
* Python floats are modelled as exact decimals `Dec` (integer mantissa
  `m` and decimal exponent `e`, denoting `m / 10 ^ e`).  All values the
  code manipulates are decimal literals parsed from text, the sum is
  rounded to 5 decimal places before it is ever formatted, and `str()`
  of such a float prints its shortest decimal form, so the decimal
  idealisation coincides with the float semantics on this domain.
* The regex `(M104\s.*S)(\d*\.?\d*)(.*)` under `fullmatch` is expanded
  by hand: group 1 is greedy, so the `S` used is the last `S` of the
  line; `.` matches everything except a newline.
* `float(...)` applied to the matched numeric group raises `ValueError`
  on a digit-free group; in the Python code that call is *outside* the
  `try` block (only `round` is guarded), so the model maps it to
  `Except.error`.
* The mapping is a `List (String × List String)` (Python dicts iterate
  in insertion order); the returned `Bool` is `dict_changed`, which is
  `true` exactly when the code calls `setattr(scene, "gcode_dict", ...)`
  (writes the mapping back to the scene).
-/

namespace TempOffset

/-- Exact decimal number: denotes `m / 10 ^ e`.  Stands in for the
Python floats handled by the filter (parsed decimal literals and the
`temp_offset` setting). -/
structure Dec where
  m : Int
  e : Nat
deriving DecidableEq, Repr

/-- Rational value denoted by a `Dec`. -/
def Dec.toRat (d : Dec) : ℚ := (d.m : ℚ) / 10 ^ d.e

/-- Exact decimal addition (`parsed + temp_offset_value`). -/
def Dec.add (a b : Dec) : Dec :=
  let E := max a.e b.e
  ⟨a.m * 10 ^ (E - a.e) + b.m * 10 ^ (E - b.e), E⟩

/-- `d == 0` in Python (value equality with zero). -/
def Dec.isZero (d : Dec) : Bool := d.m = 0

/-- Round `m / D` (with `D > 0`) half to even, as Python `round` does. -/
def roundHalfEvenDiv (m : Int) (D : Nat) : Int :=
  let q := m.ediv D
  let r := m.emod D
  if 2 * r < (D : Int) then q
  else if (D : Int) < 2 * r then q + 1
  else if q % 2 = 0 then q else q + 1

/-- `round(x, 5)` of Python, on exact decimals; the result always has
exponent 5. -/
def Dec.round5 (d : Dec) : Dec :=
  if d.e ≤ 5 then ⟨d.m * 10 ^ (5 - d.e), 5⟩
  else ⟨roundHalfEvenDiv d.m (10 ^ (d.e - 5)), 5⟩

/-- Decimal digit as a character. -/
def digitChar (d : Nat) : Char :=
  match d with
  | 0 => '0' | 1 => '1' | 2 => '2' | 3 => '3' | 4 => '4'
  | 5 => '5' | 6 => '6' | 7 => '7' | 8 => '8' | _ => '9'

/-- Decimal digits of `n`, most significant first (`fuel`-guarded so the
recursion is structural; `fuel = n` always suffices). -/
def natCharsCore : Nat → Nat → List Char → List Char
  | 0, _, acc => acc
  | _ + 1, 0, acc => acc
  | fuel + 1, n + 1, acc => natCharsCore fuel ((n + 1) / 10) (digitChar ((n + 1) % 10) :: acc)

/-- Decimal representation of a natural number, as Python prints it. -/
def natChars (n : Nat) : List Char := if n = 0 then ['0'] else natCharsCore n n []

/-- The `k` least significant decimal digits of `n`, most significant
first (zero padded). -/
def padRev : Nat → Nat → List Char
  | 0, _ => []
  | k + 1, n => digitChar (n % 10) :: padRev k (n / 10)

def padChars (k n : Nat) : List Char := (padRev k n).reverse

/-- Drop trailing `'0'` characters but keep at least one digit, as the
fractional part of Python `str(float)` does. -/
def stripTrailingZeros (cs : List Char) : List Char :=
  match cs.reverse.dropWhile (fun c => c = '0') with
  | [] => ['0']
  | l => l.reverse

/-- `str()` of the Python float denoted by `d`: sign, integer part, a
dot, then the fractional digits with trailing zeros removed (at least
one digit).  Every value the code formats has been rounded to 5 decimal
places first, so this shortest-decimal form is exactly what Python
prints. -/
def Dec.pyStr (d : Dec) : List Char :=
  let sign : List Char := if d.m < 0 then ['-'] else []
  let a : Nat := d.m.natAbs
  let ip : Nat := a / 10 ^ d.e
  let fr : Nat := a % 10 ^ d.e
  sign ++ natChars ip ++ '.' :: stripTrailingZeros (padChars d.e fr)

/-- Python `\s` on the ASCII range. -/
def isSpaceChar (c : Char) : Bool :=
  c = ' ' || c = '\t' || c = '\n' || c = '\r' || c = '\x0b' || c = '\x0c'

def isDigitChar (c : Char) : Bool := '0' ≤ c && c ≤ '9'

/-- Greedy `\d*`: maximal digit prefix and the remainder. -/
def takeDigits : List Char → List Char × List Char
  | [] => ([], [])
  | c :: cs =>
      if isDigitChar c then
        let (d, r) := takeDigits cs
        (c :: d, r)
      else ([], c :: cs)

/-- Greedy `\d*\.?\d*`: the matched group and the remainder. -/
def numGroup (cs : List Char) : List Char × List Char :=
  let (d1, r1) := takeDigits cs
  match r1 with
  | '.' :: r2 =>
      let (d2, r3) := takeDigits r2
      (d1 ++ '.' :: d2, r3)
  | _ => (d1, r1)

/-- Split at the *last* `'S'` (greedy `.*S`): `some (before, after)`
with `cs = before ++ 'S' :: after`, or `none` when `cs` has no `'S'`. -/
def splitLastS : List Char → Option (List Char × List Char)
  | [] => none
  | c :: cs =>
      match splitLastS cs with
      | some (a, b) => some (c :: a, b)
      | none => if c = 'S' then some ([], cs) else none

/-- `re.fullmatch(r"(M104\s.*S)(\d*\.?\d*)(.*)", line)`, returning group
2 on success.  The line must start with `M104` followed by one
whitespace character; `.` never matches `'\n'`, and every remaining
character is consumed by `.`, `S`, or the numeric group, so a match
requires the tail to be newline-free and to contain an `'S'`; group 1 is
greedy, so the split is at the last `'S'`. -/
def hotendMatch (line : String) : Option String :=
  match line.data with
  | 'M' :: '1' :: '0' :: '4' :: w :: rest =>
      if isSpaceChar w && !rest.contains '\n' then
        match splitLastS rest with
        | some (_, after) => some (String.mk (numGroup after).1)
        | none => none
      else none
  | _ => none

def digitsToNat (ds : List Char) : Nat :=
  ds.foldl (fun a c => 10 * a + (c.toNat - 48)) 0

/-- `float(group2)` where `group2` matched `\d*\.?\d*`: fails (Python
`ValueError`) exactly when the group contains no digit (`""` or `"."`);
otherwise the denoted exact decimal. -/
def parseNumGroup (cs : List Char) : Option Dec :=
  let (ip, r1) := takeDigits cs
  match r1 with
  | [] => if ip = [] then none else some ⟨digitsToNat ip, 0⟩
  | '.' :: r2 =>
      let (fp, r3) := takeDigits r2
      if r3 = [] then
        if ip = [] && fp = [] then none
        else some ⟨digitsToNat (ip ++ fp), fp.length⟩
      else none
  | _ => none

/-- The parsed temperature of a line: `some v` when the line matches the
`M104` pattern and its numeric group parses. -/
def lineValue (l : String) : Option Dec :=
  (hotendMatch l).bind fun g => parseNumGroup g.data

/-- The replacement text the code writes:
`"M104 " + str(round(parsed + offset, 5)) + " ;adjusted by temp offset"`. -/
def rewriteLine (off v : Dec) : String :=
  String.mk ("M104 ".data ++ (Dec.round5 (v.add off)).pyStr ++ " ;adjusted by temp offset".data)

/-- The inner `for line in lines` loop of `_filterGcode`: first match is
inspected; a digit-free numeric group raises (`Except.error`); a zero
temperature is skipped (`continue`); otherwise the line is replaced and
the loop `break`s, leaving all later lines untouched. -/
def procLines (off : Dec) : List String → Except Unit (List String)
  | [] => .ok []
  | l :: ls =>
      match hotendMatch l with
      | none => (procLines off ls).map (fun r => l :: r)
      | some g =>
          match parseNumGroup g.data with
          | none => .error ()
          | some v =>
              if v.isZero then (procLines off ls).map (fun r => l :: r)
              else .ok (rewriteLine off v :: ls)

/-- Python `s.split("\n")`. -/
def splitOnNL : List Char → List (List Char)
  | [] => [[]]
  | c :: cs =>
      if c = '\n' then [] :: splitOnNL cs
      else
        match splitOnNL cs with
        | [] => [[c]]
        | h :: t => (c :: h) :: t

def pySplitNL (s : String) : List String := (splitOnNL s.data).map String.mk

/-- Python `"\n".join(lines)`. -/
def joinNL : List (List Char) → List Char
  | [] => []
  | [l] => l
  | l :: l2 :: ls => l ++ '\n' :: joinNL (l2 :: ls)

def joinLinesNL (ls : List String) : String := String.mk (joinNL (ls.map String.data))

/-- One iteration of the outer segment loop: split into lines, run the
line loop, join back. -/
def processSegment (off : Dec) (seg : String) : Except Unit String :=
  (procLines off (pySplitNL seg)).map joinLinesNL

def isPrefixB : List Char → List Char → Bool
  | [], _ => true
  | _ :: _, [] => false
  | a :: as, b :: bs => a = b && isPrefixB as bs

/-- Python `pat in hay` (substring containment). -/
def containsSub (hay pat : List Char) : Bool :=
  match hay with
  | [] => isPrefixB pat []
  | c :: t => isPrefixB pat (c :: t) || containsSub t pat

def layerMarker : List Char := ";LAYER:0\n".data

def procMarker : List Char := ";TEMPOFFSETPROCESSED\n".data

/-- Python `s.split(";LAYER:0\n")`: leftmost, non-overlapping. -/
def splitOnLayer : List Char → List (List Char)
  | ';' :: 'L' :: 'A' :: 'Y' :: 'E' :: 'R' :: ':' :: '0' :: '\n' :: t => [] :: splitOnLayer t
  | c :: t =>
      match splitOnLayer t with
      | [] => [[c]]
      | h :: tl => (c :: h) :: tl
  | [] => [[]]

/-- The anomaly repair (lines 117-121): when segment 1 contains
`";LAYER:0\n"`, set segment 1 to `chunks[0]` and insert
`";LAYER:0\n" + chunks[1]` at index 2.  Chunks beyond the second are
discarded, exactly as the Python code does. -/
def repairPlate (segs : List String) : List String :=
  match segs with
  | s0 :: s1 :: rest =>
      if containsSub s1.data layerMarker then
        let chunks := splitOnLayer s1.data
        s0 :: String.mk (chunks.getD 0 []) :: String.mk (layerMarker ++ chunks.getD 1 []) :: rest
      else s0 :: s1 :: rest
  | other => other

/-- The outer `for (list_nr, list) in enumerate(gcode_list)` loop. -/
def procSegs (off : Dec) : List String → Except Unit (List String)
  | [] => .ok []
  | s :: ss => do
      let s' ← processSegment off s
      let ss' ← procSegs off ss
      return s' :: ss'

/-- `gcode_list[0] += ";TEMPOFFSETPROCESSED\n"` (raw concatenation). -/
def appendMarker (segs : List String) : List String :=
  match segs with
  | [] => []
  | s0 :: rest => String.mk (s0.data ++ procMarker) :: rest

/-- Body of the eligible-plate branch: repair, scan every segment, then
append the processed marker to segment 0. -/
def procPlate (off : Dec) (segs : List String) : Except Unit (List String) :=
  (procSegs off (repairPlate segs)).map appendMarker

/-- A plate is processed when it has at least two segments and segment 0
does not yet contain the processed marker. -/
def plateEligible (segs : List String) : Bool :=
  decide (2 ≤ segs.length) && !containsSub (segs.headD "").data procMarker

/-- The whole per-plate treatment inside the `for plate_id` loop. -/
def filterPlate (off : Dec) (segs : List String) : Except Unit (List String) :=
  if plateEligible segs then procPlate off segs else .ok segs

/-- The `for plate_id in gcode_dict` loop; the `Bool` is `dict_changed`. -/
def goPlates (off : Dec) : List (String × List String) → Except Unit (List (String × List String) × Bool)
  | [] => .ok ([], false)
  | (pid, segs) :: rest =>
      if plateEligible segs then do
        let segs' ← procPlate off segs
        let (r, _) ← goPlates off rest
        return ((pid, segs') :: r, true)
      else
        (goPlates off rest).map (fun rc => ((pid, segs) :: rc.1, rc.2))

/-- `_filterGcode`, from the `temp_offset_value == 0` guard on: returns
the (possibly mutated) mapping and `dict_changed`; the mapping is
written back to the scene exactly when that flag is `true`. -/
def filterGcode (off : Dec) (g : List (String × List String)) :
    Except Unit (List (String × List String) × Bool) :=
  if off.isZero then .ok (g, false)
  else if g.isEmpty then .ok (g, false)
  else goPlates off g

/-- A line is actionable when it matches the pattern and parses to a
nonzero temperature: exactly the lines the loop rewrites. -/
def lineActionable (l : String) : Bool :=
  match lineValue l with
  | some v => !v.isZero
  | none => false

/-- Index of the first actionable line of a segment, if any. -/
def firstActionable : List String → Option Nat
  | [] => none
  | l :: ls => if lineActionable l then some 0 else (firstActionable ls).map (· + 1)

/-- Concatenation of all segment texts of a plate. -/
def concatSegs (segs : List String) : List Char :=
  segs.foldr (fun s acc => s.data ++ acc) []

/-- Frame relation between an input segment and its processed text: same
number of lines, and every line that does not match the `M104` pattern
is byte-for-byte unchanged. -/
def segFrame (s t : String) : Prop :=
  (pySplitNL t).length = (pySplitNL s).length ∧
  ∀ k, hotendMatch ((pySplitNL s).getD k "") = none →
    (pySplitNL t).getD k "" = (pySplitNL s).getD k ""

/-! ### Basic lemmas about line splitting and joining -/

theorem strMk_data (s : String) : String.mk s.data = s := by cases s; rfl

theorem splitOnNL_ne_nil (cs : List Char) : splitOnNL cs ≠ [] := by
  induction cs with
  | nil => simp [splitOnNL]
  | cons c t ih =>
    simp only [splitOnNL]
    split
    · simp
    · split <;> simp

theorem nl_not_mem_splitOnNL : ∀ (cs : List Char) (l : List Char), l ∈ splitOnNL cs → '\n' ∉ l := by
  intro cs
  induction cs with
  | nil =>
    intro l hl
    simp only [splitOnNL, List.mem_singleton] at hl
    simp [hl]
  | cons c t ih =>
    intro l hl
    simp only [splitOnNL] at hl
    by_cases h : c = '\n'
    · rw [if_pos h] at hl
      rcases List.mem_cons.1 hl with rfl | hl
      · simp
      · exact ih l hl
    · rw [if_neg h] at hl
      cases hs : splitOnNL t with
      | nil => exact absurd hs (splitOnNL_ne_nil t)
      | cons a s =>
        rw [hs] at hl
        rcases List.mem_cons.1 hl with rfl | hl
        · intro hc
          rcases List.mem_cons.1 hc with h1 | h1
          · exact h h1.symm
          · exact ih a (hs ▸ List.mem_cons_self a s) h1
        · exact ih l (hs ▸ List.mem_cons_of_mem a hl)

theorem splitOnNL_no_nl (cs : List Char) (h : '\n' ∉ cs) : splitOnNL cs = [cs] := by
  induction cs with
  | nil => rfl
  | cons c t ih =>
    have hc : ¬ c = '\n' := fun e => h (e ▸ List.mem_cons_self c t)
    have ht : '\n' ∉ t := fun m => h (List.mem_cons_of_mem c m)
    simp only [splitOnNL, if_neg hc, ih ht]

theorem splitOnNL_append_nl (x r : List Char) (h : '\n' ∉ x) :
    splitOnNL (x ++ '\n' :: r) = x :: splitOnNL r := by
  induction x with
  | nil => simp [splitOnNL]
  | cons c t ih =>
    have hc : ¬ c = '\n' := fun e => h (e ▸ List.mem_cons_self c t)
    have ht : '\n' ∉ t := fun m => h (List.mem_cons_of_mem c m)
    rw [List.cons_append]
    simp only [splitOnNL, if_neg hc]
    rw [ih ht]

theorem splitOnNL_joinNL : ∀ (xss : List (List Char)), xss ≠ [] →
    (∀ l ∈ xss, '\n' ∉ l) → splitOnNL (joinNL xss) = xss := by
  intro xss
  induction xss with
  | nil => simp
  | cons x t ih =>
    intro _ hno
    cases t with
    | nil => exact splitOnNL_no_nl x (hno x (List.mem_cons_self x []))
    | cons y s =>
      show splitOnNL (x ++ '\n' :: joinNL (y :: s)) = x :: y :: s
      rw [splitOnNL_append_nl x _ (hno x (List.mem_cons_self x _)),
        ih (by simp) (fun l hl => hno l (List.mem_cons_of_mem x hl))]

theorem joinNL_splitOnNL (cs : List Char) : joinNL (splitOnNL cs) = cs := by
  induction cs with
  | nil => rfl
  | cons c t ih =>
    simp only [splitOnNL]
    by_cases h : c = '\n'
    · rw [if_pos h]
      cases hs : splitOnNL t with
      | nil => exact absurd hs (splitOnNL_ne_nil t)
      | cons a s =>
        rw [hs] at ih
        show '\n' :: joinNL (a :: s) = c :: t
        rw [ih, h]
    · rw [if_neg h]
      cases hs : splitOnNL t with
      | nil => exact absurd hs (splitOnNL_ne_nil t)
      | cons a s =>
        rw [hs] at ih
        cases s with
        | nil =>
          show c :: a = c :: t
          rw [show a = t from ih]
        | cons b s' =>
          show (c :: a) ++ '\n' :: joinNL (b :: s') = c :: t
          rw [List.cons_append]
          exact congrArg (c :: ·) ih

theorem map_mk_data : ∀ (ls : List String), (ls.map String.data).map String.mk = ls := by
  intro ls
  induction ls with
  | nil => rfl
  | cons x t ih => simp only [List.map_cons, strMk_data, ih]

theorem pySplitNL_joinLinesNL (ls : List String) (hne : ls ≠ [])
    (hno : ∀ l ∈ ls, '\n' ∉ l.data) : pySplitNL (joinLinesNL ls) = ls := by
  unfold pySplitNL joinLinesNL
  have hd : (String.mk (joinNL (ls.map String.data))).data = joinNL (ls.map String.data) := rfl
  rw [hd, splitOnNL_joinNL (ls.map String.data) (by simpa using hne)
    (by
      intro l hl
      rcases List.mem_map.1 hl with ⟨s, hs, rfl⟩
      exact hno s hs),
    map_mk_data]

theorem joinLinesNL_pySplitNL (s : String) : joinLinesNL (pySplitNL s) = s := by
  unfold pySplitNL joinLinesNL
  rw [List.map_map]
  have : (splitOnNL s.data).map (String.data ∘ String.mk) = splitOnNL s.data := by
    induction splitOnNL s.data with
    | nil => rfl
    | cons a t ih => simp only [List.map_cons, Function.comp_apply, ih]
  rw [this, joinNL_splitOnNL, strMk_data]

theorem mem_pySplitNL_no_nl (s : String) (l : String) (hl : l ∈ pySplitNL s) : '\n' ∉ l.data := by
  rcases List.mem_map.1 hl with ⟨x, hx, rfl⟩
  exact nl_not_mem_splitOnNL s.data x hx

/-! ### The rewritten line contains no newline -/

theorem digitChar_ne_nl (d : Nat) : digitChar d ≠ '\n' := by
  unfold digitChar; split <;> decide

theorem natCharsCore_mem : ∀ (fuel n : Nat) (acc : List Char) (c : Char),
    c ∈ natCharsCore fuel n acc → c ∈ acc ∨ ∃ d, c = digitChar d := by
  intro fuel
  induction fuel with
  | zero =>
    intro n acc c h
    left
    simpa [natCharsCore] using h
  | succ f ih =>
    intro n acc c h
    cases n with
    | zero => left; simpa [natCharsCore] using h
    | succ m =>
      rw [natCharsCore] at h
      rcases ih _ _ _ h with hin | hd
      · rcases List.mem_cons.1 hin with rfl | hin
        · exact Or.inr ⟨(m + 1) % 10, rfl⟩
        · exact Or.inl hin
      · exact Or.inr hd

theorem natChars_ne_nl (n : Nat) (c : Char) (h : c ∈ natChars n) : c ≠ '\n' := by
  unfold natChars at h
  split at h
  · rw [List.mem_singleton] at h
    rw [h]; decide
  · rcases natCharsCore_mem _ _ _ _ h with h0 | ⟨d, rfl⟩
    · simp at h0
    · exact digitChar_ne_nl d

theorem padRev_mem : ∀ (k n : Nat) (c : Char), c ∈ padRev k n → ∃ d, c = digitChar d := by
  intro k
  induction k with
  | zero => intro n c h; simp [padRev] at h
  | succ j ih =>
    intro n c h
    rw [padRev] at h
    rcases List.mem_cons.1 h with rfl | h
    · exact ⟨n % 10, rfl⟩
    · exact ih _ _ h

theorem stripTrailingZeros_mem (cs : List Char) (c : Char)
    (h : c ∈ stripTrailingZeros cs) : c ∈ cs ∨ c = '0' := by
  unfold stripTrailingZeros at h
  cases hdw : cs.reverse.dropWhile (fun c => c = '0') with
  | nil =>
    simp only [hdw] at h
    right; simpa using h
  | cons a t =>
    simp only [hdw] at h
    left
    have hsub : c ∈ cs.reverse.dropWhile (fun c => c = '0') := by
      rw [hdw]; exact List.mem_reverse.1 h
    exact List.mem_reverse.1 ((List.dropWhile_sublist _).mem hsub)

theorem pyStr_ne_nl (d : Dec) (c : Char) (h : c ∈ d.pyStr) : c ≠ '\n' := by
  unfold Dec.pyStr at h
  rcases List.mem_append.1 h with h1 | h2
  · rcases List.mem_append.1 h1 with hs | hn
    · split at hs
      · rw [List.mem_singleton] at hs; rw [hs]; decide
      · simp at hs
    · exact natChars_ne_nl _ _ hn
  · rcases List.mem_cons.1 h2 with rfl | hf
    · decide
    · rcases stripTrailingZeros_mem _ _ hf with hp | rfl
      · rcases padRev_mem _ _ _ (List.mem_reverse.1 hp) with ⟨dd, rfl⟩
        exact digitChar_ne_nl dd
      · decide

theorem rewriteLine_no_nl (off v : Dec) : '\n' ∉ (rewriteLine off v).data := by
  intro h
  have hd : (rewriteLine off v).data =
      "M104 ".data ++ (Dec.round5 (v.add off)).pyStr ++ " ;adjusted by temp offset".data := rfl
  rw [hd] at h
  rcases List.mem_append.1 h with h1 | h2
  · rcases List.mem_append.1 h1 with ha | hb
    · revert ha; decide
    · exact pyStr_ne_nl _ _ hb rfl
  · revert h2; decide

/-! ### getD/set helpers -/

theorem getD_set_ne {α : Type} : ∀ (l : List α) (i k : Nat) (a d : α), k ≠ i →
    (l.set i a).getD k d = l.getD k d := by
  intro l
  induction l with
  | nil => intro i k a d _; rfl
  | cons x t ih =>
    intro i k a d hk
    cases i with
    | zero =>
      cases k with
      | zero => exact absurd rfl hk
      | succ j => rfl
    | succ i' =>
      cases k with
      | zero => rfl
      | succ j => exact ih i' j a d (fun e => hk (by rw [e]))

theorem getD_set_self {α : Type} : ∀ (l : List α) (i : Nat) (a d : α), i < l.length →
    (l.set i a).getD i d = a := by
  intro l
  induction l with
  | nil => intro i a d h; simp at h
  | cons x t ih =>
    intro i a d h
    cases i with
    | zero => rfl
    | succ i' => exact ih i' a d (by simpa using h)

theorem firstActionable_lt : ∀ (ls : List String) (i : Nat),
    firstActionable ls = some i → i < ls.length := by
  intro ls
  induction ls with
  | nil => intro i h; simp [firstActionable] at h
  | cons l t ih =>
    intro i h
    rw [firstActionable] at h
    split at h
    · cases h; simp
    · rcases Option.map_eq_some'.1 h with ⟨j, hj, rfl⟩
      simpa using Nat.succ_lt_succ (ih j hj)

/-! ### Characterisation of the line loop -/

theorem procLines_spec (off : Dec) : ∀ (ls ls' : List String), procLines off ls = .ok ls' →
    (firstActionable ls = none ∧ ls' = ls) ∨
    ∃ i v, firstActionable ls = some i ∧ lineValue (ls.getD i "") = some v ∧
      v.isZero = false ∧ ls' = ls.set i (rewriteLine off v) := by
  intro ls
  induction ls with
  | nil =>
    intro ls' h
    simp only [procLines, Except.ok.injEq] at h
    subst h
    exact Or.inl ⟨rfl, rfl⟩
  | cons l t ih =>
    intro ls' h
    rw [procLines] at h
    cases hm : hotendMatch l with
    | none =>
      simp only [hm] at h
      have hact : lineActionable l = false := by
        simp [lineActionable, lineValue, hm]
      cases hr : procLines off t with
      | error e =>
        rw [hr] at h
        exact Except.noConfusion h
      | ok r =>
        simp only [hr, Except.map, Except.ok.injEq] at h
        subst h
        rcases ih r hr with ⟨hn, rfl⟩ | ⟨i, v, hi, hv, hz, he⟩
        · exact Or.inl ⟨by simp [firstActionable, hact, hn], rfl⟩
        · refine Or.inr ⟨i + 1, v, ?_, ?_, hz, ?_⟩
          · simp [firstActionable, hact, hi]
          · simpa using hv
          · rw [he]; rfl
    | some g =>
      simp only [hm] at h
      cases hp : parseNumGroup g.data with
      | none =>
        simp only [hp] at h
        exact Except.noConfusion h
      | some v =>
        simp only [hp] at h
        by_cases hz : v.isZero = true
        · rw [if_pos hz] at h
          have hact : lineActionable l = false := by
            simp [lineActionable, lineValue, hm, hp, hz]
          cases hr : procLines off t with
          | error e =>
            rw [hr] at h
            exact Except.noConfusion h
          | ok r =>
            simp only [hr, Except.map, Except.ok.injEq] at h
            subst h
            rcases ih r hr with ⟨hn, rfl⟩ | ⟨i, v', hi, hv, hz', he⟩
            · exact Or.inl ⟨by simp [firstActionable, hact, hn], rfl⟩
            · refine Or.inr ⟨i + 1, v', ?_, ?_, hz', ?_⟩
              · simp [firstActionable, hact, hi]
              · simpa using hv
              · rw [he]; rfl
        · rw [if_neg hz] at h
          simp only [Except.ok.injEq] at h
          subst h
          have hz' : v.isZero = false := by simpa using hz
          refine Or.inr ⟨0, v, ?_, ?_, hz', rfl⟩
          · simp [firstActionable, lineActionable, lineValue, hm, hp, hz']
          · simp [lineValue, hm, hp]

/-! ### The segment loop -/

theorem procSegs_ok (off : Dec) : ∀ (ss ts : List String), procSegs off ss = .ok ts →
    ts.length = ss.length ∧ ∀ j, processSegment off (ss.getD j "") = .ok (ts.getD j "") := by
  intro ss
  induction ss with
  | nil =>
    intro ts h
    simp only [procSegs, Except.ok.injEq] at h
    subst h
    exact ⟨rfl, fun j => rfl⟩
  | cons s ss ih =>
    intro ts h
    rw [procSegs] at h
    cases h1 : processSegment off s with
    | error e =>
      simp only [h1, Bind.bind, Except.bind] at h
      exact Except.noConfusion h
    | ok s' =>
      cases h2 : procSegs off ss with
      | error e =>
        simp only [h1, h2, Bind.bind, Except.bind] at h
        exact Except.noConfusion h
      | ok ts' =>
        simp only [h1, h2, Bind.bind, Except.bind, pure, Except.pure, Except.ok.injEq] at h
        subst h
        obtain ⟨hlen, hpt⟩ := ih ts' h2
        refine ⟨by simp [hlen], ?_⟩
        intro j
        cases j with
        | zero => simpa using h1
        | succ j' => simpa using hpt j'

/-! ### Substring containment -/

theorem isPrefixB_refl : ∀ (l : List Char), isPrefixB l l = true := by
  intro l
  induction l with
  | nil => rfl
  | cons c t ih => simp [isPrefixB, ih]

theorem containsSub_append_self : ∀ (a pat : List Char), containsSub (a ++ pat) pat = true := by
  intro a pat
  induction a with
  | nil =>
    cases pat with
    | nil => rfl
    | cons c t => simp [containsSub, isPrefixB_refl]
  | cons c t ih =>
    show containsSub (c :: (t ++ pat)) pat = true
    rw [containsSub, ih, Bool.or_true]

/-! ### Per-segment frame property -/

theorem pySplitNL_ne_nil (s : String) : pySplitNL s ≠ [] := by
  intro h
  unfold pySplitNL at h
  exact splitOnNL_ne_nil s.data (by simpa using h)

theorem processSegment_frame (off : Dec) (s t : String)
    (h : processSegment off s = .ok t) : segFrame s t := by
  unfold processSegment at h
  cases hr : procLines off (pySplitNL s) with
  | error e => rw [hr] at h; exact Except.noConfusion h
  | ok tls =>
    rw [hr] at h
    simp only [Except.map, Except.ok.injEq] at h
    subst h
    have hnn : ∀ l ∈ tls, '\n' ∉ l.data := by
      rcases procLines_spec off _ _ hr with ⟨_, rfl⟩ | ⟨i, v, hi, hv, hz, rfl⟩
      · exact fun l hl => mem_pySplitNL_no_nl s l hl
      · intro l hl
        rcases List.mem_or_eq_of_mem_set hl with hl' | rfl
        · exact mem_pySplitNL_no_nl s l hl'
        · exact rewriteLine_no_nl off v
    have hne : tls ≠ [] := by
      rcases procLines_spec off _ _ hr with ⟨_, rfl⟩ | ⟨i, v, hi, hv, hz, rfl⟩
      · exact pySplitNL_ne_nil s
      · intro he
        exact pySplitNL_ne_nil s (by simpa using congrArg List.length he)
    have hsplit : pySplitNL (joinLinesNL tls) = tls := pySplitNL_joinLinesNL tls hne hnn
    constructor
    · rw [hsplit]
      rcases procLines_spec off _ _ hr with ⟨_, rfl⟩ | ⟨i, v, hi, hv, hz, rfl⟩
      · rfl
      · exact List.length_set _ _ _
    · intro k hk
      rw [hsplit]
      rcases procLines_spec off _ _ hr with ⟨_, rfl⟩ | ⟨i, v, hi, hv, hz, rfl⟩
      · rfl
      · by_cases hki : k = i
        · subst hki
          rw [lineValue, hk] at hv
          exact Option.noConfusion hv
        · exact getD_set_ne _ i k _ _ hki

/-! ### Plate-level lemmas -/

theorem repairPlate_length (segs : List String) : segs.length ≤ (repairPlate segs).length := by
  unfold repairPlate
  split
  · split
    · simp
    · exact le_refl _
  · exact le_refl _

theorem procPlate_marker (off : Dec) (segs segs' : List String)
    (h : procPlate off segs = .ok segs') (h2 : 2 ≤ segs.length) :
    2 ≤ segs'.length ∧ containsSub (segs'.headD "").data procMarker = true := by
  unfold procPlate at h
  cases hr : procSegs off (repairPlate segs) with
  | error e => rw [hr] at h; exact Except.noConfusion h
  | ok ss' =>
    rw [hr] at h
    simp only [Except.map, Except.ok.injEq] at h
    subst h
    obtain ⟨hlen, _⟩ := procSegs_ok off _ _ hr
    have hlen2 : 2 ≤ ss'.length := by
      rw [hlen]; exact le_trans h2 (repairPlate_length segs)
    cases ss' with
    | nil => simp at hlen2
    | cons t0 ts =>
      refine ⟨by simpa [appendMarker] using hlen2, ?_⟩
      show containsSub (t0.data ++ procMarker) procMarker = true
      exact containsSub_append_self t0.data procMarker

theorem goPlates_not_eligible (off : Dec) :
    ∀ (g g' : List (String × List String)) (c : Bool),
    goPlates off g = .ok (g', c) → ∀ p ∈ g', plateEligible p.2 = false := by
  intro g
  induction g with
  | nil =>
    intro g' c h
    simp only [goPlates, Except.ok.injEq, Prod.mk.injEq] at h
    obtain ⟨h1, _⟩ := h
    subst h1
    intro p hp
    simp at hp
  | cons p rest ih =>
    obtain ⟨pid, segs⟩ := p
    intro g' c h
    rw [goPlates] at h
    by_cases he : plateEligible segs = true
    · rw [if_pos he] at h
      cases h1 : procPlate off segs with
      | error e =>
        simp only [h1, Bind.bind, Except.bind] at h
        exact Except.noConfusion h
      | ok segs' =>
        cases h2 : goPlates off rest with
        | error e =>
          simp only [h1, h2, Bind.bind, Except.bind] at h
          exact Except.noConfusion h
        | ok rc =>
          obtain ⟨r, c'⟩ := rc
          simp only [h1, h2, Bind.bind, Except.bind, pure, Except.pure,
            Except.ok.injEq, Prod.mk.injEq] at h
          obtain ⟨hg', _⟩ := h
          subst hg'
          intro q hq
          rcases List.mem_cons.1 hq with rfl | hq'
          · have hlen : 2 ≤ segs.length := by
              have he' := he
              rw [plateEligible, Bool.and_eq_true] at he'
              exact of_decide_eq_true he'.1
            obtain ⟨_, hcont⟩ := procPlate_marker off segs segs' h1 hlen
            show plateEligible segs' = false
            rw [plateEligible, hcont]
            simp
          · exact ih _ c' h2 q hq'
    · rw [if_neg he] at h
      cases h2 : goPlates off rest with
      | error e =>
        rw [h2] at h
        exact Except.noConfusion h
      | ok rc =>
        obtain ⟨r, c'⟩ := rc
        rw [h2] at h
        simp only [Except.map, Except.ok.injEq, Prod.mk.injEq] at h
        obtain ⟨hg', _⟩ := h
        subst hg'
        intro q hq
        rcases List.mem_cons.1 hq with rfl | hq
        · simpa using he
        · exact ih _ c' h2 q hq

theorem goPlates_all_skipped (off : Dec) : ∀ (g : List (String × List String)),
    (∀ p ∈ g, plateEligible p.2 = false) → goPlates off g = .ok (g, false) := by
  intro g
  induction g with
  | nil => intro _; rfl
  | cons p rest ih =>
    intro hall
    obtain ⟨pid, segs⟩ := p
    rw [goPlates]
    have hp : plateEligible segs = false := hall (pid, segs) (List.mem_cons_self _ _)
    rw [if_neg (by simp [hp]), ih (fun q hq => hall q (List.mem_cons_of_mem _ hq))]
    rfl

/-! ### Containment and marker-line helpers -/

theorem isPrefixB_append_self : ∀ (pat b : List Char), isPrefixB pat (pat ++ b) = true := by
  intro pat b
  induction pat with
  | nil => rfl
  | cons c t ih => simp [isPrefixB, ih]

theorem containsSub_of_prefix (hay pat : List Char) (h : isPrefixB pat hay = true) :
    containsSub hay pat = true := by
  cases hay with
  | nil => rw [containsSub]; exact h
  | cons c t => rw [containsSub, h, Bool.true_or]

theorem containsSub_infix : ∀ (a pat b : List Char), containsSub (a ++ pat ++ b) pat = true := by
  intro a pat b
  induction a with
  | nil =>
    simp only [List.nil_append]
    exact containsSub_of_prefix _ _ (isPrefixB_append_self pat b)
  | cons c t ih =>
    show containsSub (c :: (t ++ pat ++ b)) pat = true
    rw [containsSub, ih, Bool.or_true]

theorem splitOnNL_cons_nl (cs : List Char) : splitOnNL ('\n' :: cs) = [] :: splitOnNL cs := by
  simp [splitOnNL]

theorem splitOnNL_cons_ne (c : Char) (cs : List Char) (hc : ¬ c = '\n')
    (a : List Char) (s : List (List Char)) (hs : splitOnNL cs = a :: s) :
    splitOnNL (c :: cs) = (c :: a) :: s := by
  simp only [splitOnNL, if_neg hc, hs]

theorem token_drop_mem : ∀ (t : List Char), t ≠ [] → t.getLast? = some '\n' →
    ";TEMPOFFSETPROCESSED".data ∈ (splitOnNL (t ++ procMarker)).drop 1 := by
  intro t
  induction t with
  | nil => intro h _; exact absurd rfl h
  | cons c t' ih =>
    intro _ hlast
    cases t' with
    | nil =>
      have hc : c = '\n' := by simpa using hlast
      subst hc
      decide
    | cons d t'' =>
      have hlast' : (d :: t'').getLast? = some '\n' := by
        rwa [List.getLast?_cons_cons] at hlast
      have ihm := ih (by simp) hlast'
      show ";TEMPOFFSETPROCESSED".data ∈ (splitOnNL ((c :: (d :: t'')) ++ procMarker)).drop 1
      rw [List.cons_append]
      by_cases hc : c = '\n'
      · subst hc
        rw [splitOnNL_cons_nl]
        simp only [List.drop_one, List.tail_cons]
        exact List.drop_subset 1 _ ihm
      · cases hs : splitOnNL ((d :: t'') ++ procMarker) with
        | nil => exact absurd hs (splitOnNL_ne_nil _)
        | cons a s =>
          rw [splitOnNL_cons_ne c _ hc a s hs]
          rw [hs] at ihm
          simpa using ihm

theorem token_mem_split (t : List Char) (h : t = [] ∨ t.getLast? = some '\n') :
    ";TEMPOFFSETPROCESSED".data ∈ splitOnNL (t ++ procMarker) := by
  rcases h with rfl | hl
  · decide
  · have hne : t ≠ [] := by rintro rfl; simp at hl
    exact List.drop_subset 1 _ (token_drop_mem t hne hl)

/-! ### Decimal addition denotes rational addition -/

theorem Dec.toRat_add (a b : Dec) : (a.add b).toRat = a.toRat + b.toRat := by
  have h1 : (10 : ℚ) ^ (max a.e b.e - a.e) * 10 ^ a.e = 10 ^ max a.e b.e := by
    rw [← pow_add]; congr 1; omega
  have h2 : (10 : ℚ) ^ (max a.e b.e - b.e) * 10 ^ b.e = 10 ^ max a.e b.e := by
    rw [← pow_add]; congr 1; omega
  show ((a.m * 10 ^ (max a.e b.e - a.e) + b.m * 10 ^ (max a.e b.e - b.e) : ℤ) : ℚ) /
      10 ^ max a.e b.e = (a.m : ℚ) / 10 ^ a.e + (b.m : ℚ) / 10 ^ b.e
  have hae : ((10 : ℚ) ^ a.e) ≠ 0 := by positivity
  have hbe : ((10 : ℚ) ^ b.e) ≠ 0 := by positivity
  have hE : ((10 : ℚ) ^ max a.e b.e) ≠ 0 := by positivity
  push_cast
  rw [div_add_div _ _ hae hbe, div_eq_div_iff hE (mul_ne_zero hae hbe)]
  linear_combination ((a.m : ℚ) * 10 ^ b.e) * h1 + ((b.m : ℚ) * 10 ^ a.e) * h2

/-! ### The claims -/

/-- C6: Zero-offset identity.  When the configured offset equals `0` the
filter returns immediately: the mapping is byte-identical to the input
and the changed flag is `false`, so nothing is written back to the
scene. -/
theorem claim_C6_zero_offset (off : Dec) (g : List (String × List String))
    (h : off.isZero = true) : filterGcode off g = .ok (g, false) := by
  unfold filterGcode
  rw [if_pos h]

theorem claim_C6_zero_offset_witness :
    filterGcode ⟨0, 0⟩ [("plate1", ["a\n", "b\n"])] =
      .ok ([("plate1", ["a\n", "b\n"])], false) :=
  claim_C6_zero_offset ⟨0, 0⟩ [("plate1", ["a\n", "b\n"])] rfl

/-- C3: End-to-end scenario.  For the mapping
`{"plate1": [";header\n", "G28\nM104 S200\nG1 X0 Y0\n"]}` and offset
`-10` the filter appends the processed marker to segment 0, rewrites the
`M104 S200` line to `M104 190.0 ;adjusted by temp offset`, leaves the
other lines untouched, and reports the mapping as changed (`true`),
i.e. writes it back to the scene. -/
theorem claim_C3_end_to_end :
    filterGcode ⟨-10, 0⟩ [("plate1", [";header\n", "G28\nM104 S200\nG1 X0 Y0\n"])] =
      .ok ([("plate1", [";header\n;TEMPOFFSETPROCESSED\n",
        "G28\nM104 190.0 ;adjusted by temp offset\nG1 X0 Y0\n"])], true) := rfl

/-- C2: the claim says internal parse failures never propagate, but in
`_filterGcode` the call `float(result.group(2))` (line 130) is *outside*
the `try` block (which guards only the `round` call at line 135).  The
pattern admits an empty numeric group, e.g. the line `M104 S`, on which
`float('')` raises `ValueError` straight past the filter's boundary:
the embedded filter evaluates to `Except.error` on that input (and on
the lone-dot variant `M104 S.`). -/
theorem claim_C2_parse_failure_raises :
    filterGcode ⟨1, 0⟩ [("p", ["h\n", "M104 S\n"])] = .error () ∧
    filterGcode ⟨1, 0⟩ [("p", ["h\n", "M104 S.\n"])] = .error () ∧
    hotendMatch "M104 S" = some "" ∧ parseNumGroup "".data = none :=
  ⟨rfl, rfl, rfl, rfl⟩

/-- C1: Idempotence.  For a nonzero offset, whenever the filter
completes on a mapping `g` with result `g'`, every plate of `g'` with at
least two segments carries the processed marker in segment 0, and a
second invocation returns `g'` unchanged with the changed flag `false`
(so nothing is written back to the scene). -/
theorem claim_C1_idempotence (off : Dec) (g g' : List (String × List String)) (c : Bool)
    (hoff : off.isZero = false) (h : filterGcode off g = .ok (g', c)) :
    (∀ p ∈ g', 2 ≤ (Prod.snd p).length →
      containsSub ((Prod.snd p).headD "").data procMarker = true) ∧
    filterGcode off g' = .ok (g', false) := by
  have hne : ¬ (off.isZero = true) := by simp [hoff]
  have hstep : ∀ x : List (String × List String),
      filterGcode off x = if x.isEmpty then .ok (x, false) else goPlates off x := by
    intro x
    unfold filterGcode
    rw [if_neg hne]
  rw [hstep] at h
  by_cases hg : g.isEmpty
  · rw [if_pos hg] at h
    have hgn : g = [] := by
      cases g with
      | nil => rfl
      | cons a t => simp [List.isEmpty] at hg
    subst hgn
    simp only [Except.ok.injEq, Prod.mk.injEq] at h
    obtain ⟨h1, _⟩ := h
    subst h1
    refine ⟨fun p hp => absurd hp (List.not_mem_nil p), ?_⟩
    rw [hstep]
    rfl
  · rw [if_neg hg] at h
    have hall := goPlates_not_eligible off g g' c h
    constructor
    · intro p hp h2
      have hpe := hall p hp
      cases hcv : containsSub ((Prod.snd p).headD "").data procMarker with
      | false =>
        exfalso
        rw [plateEligible, hcv] at hpe
        simp only [Bool.not_false, Bool.and_true, decide_eq_false_iff_not] at hpe
        exact hpe h2
      | true => rfl
    · rw [hstep]
      by_cases hge : g'.isEmpty
      · rw [if_pos hge]
      · rw [if_neg hge]
        exact goPlates_all_skipped off g' hall

theorem claim_C1_idempotence_witness :
    (∀ p ∈ [("p", ["a\n;TEMPOFFSETPROCESSED\n", "b\n"])], 2 ≤ (Prod.snd p).length →
      containsSub ((Prod.snd p).headD "").data procMarker = true) ∧
    filterGcode ⟨1, 0⟩ [("p", ["a\n;TEMPOFFSETPROCESSED\n", "b\n"])] =
      .ok ([("p", ["a\n;TEMPOFFSETPROCESSED\n", "b\n"])], false) :=
  claim_C1_idempotence ⟨1, 0⟩ [("p", ["a\n", "b\n"])]
    [("p", ["a\n;TEMPOFFSETPROCESSED\n", "b\n"])] true rfl rfl

/-- C5: Single-adjustment property.  When the line loop succeeds on a
segment's lines and `i` is the first index holding a matching line with
nonzero parsed value, the output is exactly the input with only index
`i` replaced by the rewritten command: every other line — in particular
every later `M104` line of the segment — is byte-for-byte untouched.
(The outer loop `procSegs` then continues with the next segment.) -/
theorem claim_C5_single_adjustment (off : Dec) (ls ls' : List String) (i : Nat)
    (h : procLines off ls = .ok ls') (hi : firstActionable ls = some i) :
    ∃ v, lineValue (ls.getD i "") = some v ∧ v.isZero = false ∧
      ls' = ls.set i (rewriteLine off v) := by
  rcases procLines_spec off ls ls' h with ⟨hn, _⟩ | ⟨j, v, hj, hv, hz, he⟩
  · rw [hn] at hi; exact Option.noConfusion hi
  · rw [hj] at hi
    obtain rfl : j = i := Option.some.inj hi
    exact ⟨v, hv, hz, he⟩

theorem claim_C5_single_adjustment_witness :
    ∃ v, lineValue (["M104 S100", "M104 S150"].getD 0 "") = some v ∧ v.isZero = false ∧
      ["M104 105.0 ;adjusted by temp offset", "M104 S150"] =
        ["M104 S100", "M104 S150"].set 0 (rewriteLine ⟨5, 0⟩ v) :=
  claim_C5_single_adjustment ⟨5, 0⟩ ["M104 S100", "M104 S150"]
    ["M104 105.0 ;adjusted by temp offset", "M104 S150"] 0 rfl rfl

/-- C7: Zero-temperature skip.  For every offset, a matched line whose
parsed value equals zero is never rewritten (it is returned unchanged),
and scanning continues instead of stopping: the first matching line
with nonzero value — even one after the zero line — is still
rewritten. -/
theorem claim_C7_zero_temp_skip (off : Dec) (ls ls' : List String) (k i : Nat) (z : Dec)
    (h : procLines off ls = .ok ls')
    (hk : lineValue (ls.getD k "") = some z) (hz : z.isZero = true)
    (hi : firstActionable ls = some i) :
    ls'.getD k "" = ls.getD k "" ∧
    ∃ v, lineValue (ls.getD i "") = some v ∧ v.isZero = false ∧
      ls'.getD i "" = rewriteLine off v := by
  rcases procLines_spec off ls ls' h with ⟨hn, _⟩ | ⟨j, v, hj, hv, hvz, he⟩
  · rw [hn] at hi; exact Option.noConfusion hi
  · rw [hj] at hi
    have hij : j = i := Option.some.inj hi
    subst hij
    have hki : k ≠ j := by
      intro e
      rw [e, hv] at hk
      obtain rfl : v = z := Option.some.inj hk
      rw [hz] at hvz
      exact Bool.noConfusion hvz
    refine ⟨by rw [he]; exact getD_set_ne _ j k _ _ hki, v, hv, hvz, ?_⟩
    rw [he]
    exact getD_set_self _ j _ _ (firstActionable_lt ls j hj)

theorem claim_C7_zero_temp_skip_witness :
    (["M104 S0", "M104 201.0 ;adjusted by temp offset"].getD 0 "" =
      (["M104 S0", "M104 S200"] : List String).getD 0 "") ∧
    ∃ v, lineValue ((["M104 S0", "M104 S200"] : List String).getD 1 "") = some v ∧
      v.isZero = false ∧
      ["M104 S0", "M104 201.0 ;adjusted by temp offset"].getD 1 "" = rewriteLine ⟨1, 0⟩ v :=
  claim_C7_zero_temp_skip ⟨1, 0⟩ ["M104 S0", "M104 S200"]
    ["M104 S0", "M104 201.0 ;adjusted by temp offset"] 0 1 ⟨0, 0⟩ rfl rfl rfl rfl

/-- C10: Rounding policy.  The line the loop writes at the first
actionable index carries exactly the text
`"M104 " ++ str(round5(parsed + offset)) ++ " ;adjusted by temp offset"`,
where decimal addition denotes rational addition of the parsed value and
the offset and `round5` rounds to 5 decimal places before formatting;
in particular `round(200.123456 + 2.5, 5) = 202.62346`. -/
theorem claim_C10_rounding (off : Dec) (ls ls' : List String) (i : Nat)
    (h : procLines off ls = .ok ls') (hi : firstActionable ls = some i) :
    (∃ v, lineValue (ls.getD i "") = some v ∧
      ls'.getD i "" = String.mk ("M104 ".data ++ (Dec.round5 (v.add off)).pyStr ++
        " ;adjusted by temp offset".data) ∧
      (v.add off).toRat = v.toRat + off.toRat) ∧
    Dec.round5 ((Dec.mk 200123456 6).add (Dec.mk 25 1)) = Dec.mk 20262346 5 ∧
    (Dec.mk 20262346 5).toRat = 20262346 / 100000 := by
  refine ⟨?_, by decide, by norm_num [Dec.toRat]⟩
  rcases procLines_spec off ls ls' h with ⟨hn, _⟩ | ⟨j, v, hj, hv, hz, he⟩
  · rw [hn] at hi; exact Option.noConfusion hi
  · rw [hj] at hi
    have hij : j = i := Option.some.inj hi
    subst hij
    refine ⟨v, hv, ?_, Dec.toRat_add v off⟩
    rw [he, getD_set_self _ j _ _ (firstActionable_lt ls j hj)]
    rfl

theorem claim_C10_rounding_witness :
    (∃ v, lineValue ((["M104 S200.123456"] : List String).getD 0 "") = some v ∧
      ["M104 202.62346 ;adjusted by temp offset"].getD 0 "" =
        String.mk ("M104 ".data ++ (Dec.round5 (v.add ⟨25, 1⟩)).pyStr ++
          " ;adjusted by temp offset".data) ∧
      (v.add ⟨25, 1⟩).toRat = v.toRat + (Dec.mk 25 1).toRat) ∧
    Dec.round5 ((Dec.mk 200123456 6).add (Dec.mk 25 1)) = Dec.mk 20262346 5 ∧
    (Dec.mk 20262346 5).toRat = 20262346 / 100000 :=
  claim_C10_rounding ⟨25, 1⟩ ["M104 S200.123456"]
    ["M104 202.62346 ;adjusted by temp offset"] 0 rfl rfl

/-- C8: Frame property.  For an eligible plate (no processed marker in
segment 0) whose segment 1 does not contain the layer marker: when the
filter completes, the result is the processed segments with the marker
appended to segment 0; every segment keeps its line count, and every
line that does not match the `M104` pattern is byte-for-byte
unchanged. -/
theorem claim_C8_frame (off : Dec) (s0 s1 : String) (rest : List String) (segs' : List String)
    (hm : containsSub s0.data procMarker = false)
    (hl : containsSub s1.data layerMarker = false)
    (h : filterPlate off (s0 :: s1 :: rest) = .ok segs') :
    ∃ t0 ts, segs' = String.mk (t0.data ++ procMarker) :: ts ∧ segFrame s0 t0 ∧
      ts.length = rest.length + 1 ∧
      ∀ j, segFrame ((s1 :: rest).getD j "") (ts.getD j "") := by
  unfold filterPlate at h
  have hel : plateEligible (s0 :: s1 :: rest) = true := by
    simp only [plateEligible, List.headD_cons, hm, Bool.not_false, Bool.and_true,
      decide_eq_true_eq, List.length_cons]
    omega
  rw [if_pos hel] at h
  unfold procPlate at h
  have hrep : repairPlate (s0 :: s1 :: rest) = s0 :: s1 :: rest := by
    simp [repairPlate, hl]
  rw [hrep] at h
  cases hr : procSegs off (s0 :: s1 :: rest) with
  | error e => rw [hr] at h; exact Except.noConfusion h
  | ok ss' =>
    rw [hr] at h
    simp only [Except.map, Except.ok.injEq] at h
    subst h
    obtain ⟨hlen, hpt⟩ := procSegs_ok off _ _ hr
    cases ss' with
    | nil => simp at hlen
    | cons t0 ts =>
      refine ⟨t0, ts, rfl, ?_, ?_, ?_⟩
      · exact processSegment_frame off s0 t0 (by simpa using hpt 0)
      · simpa using hlen
      · intro j
        exact processSegment_frame off _ _ (by simpa using hpt (j + 1))

theorem claim_C8_frame_witness :
    ∃ t0 ts, ["a\n;TEMPOFFSETPROCESSED\n", "M104 201.0 ;adjusted by temp offset\nX\n"] =
      String.mk (t0.data ++ procMarker) :: ts ∧ segFrame "a\n" t0 ∧
      ts.length = ([] : List String).length + 1 ∧
      ∀ j, segFrame ((["M104 S200\nX\n"] : List String).getD j "") (ts.getD j "") :=
  claim_C8_frame ⟨1, 0⟩ "a\n" "M104 S200\nX\n" [] _ rfl rfl rfl

/-- C9 counterexample: the code appends the marker by raw string
concatenation (`gcode_list[0] += ";TEMPOFFSETPROCESSED\n"`, line 144);
when the incoming segment 0 does not end with a newline — here
`";header"` — the marker token does *not* occupy a complete line of the
resulting segment 0, refuting the claim's "including when the incoming
segment 0 text does not end with a newline". -/
theorem claim_C9_counterexample :
    filterPlate ⟨1, 0⟩ [";header", "x\n"] =
      .ok [";header;TEMPOFFSETPROCESSED\n", "x\n"] ∧
    ";TEMPOFFSETPROCESSED" ∉ pySplitNL ";header;TEMPOFFSETPROCESSED\n" :=
  ⟨rfl, by decide⟩

/-- C9 (amended): for every plate that completes processing, the
newline-terminated marker is appended as a raw suffix to segment 0; the
marker token occupies a complete line of the resulting segment 0
whenever the scanned segment 0 text is empty or ends with a newline
(but not otherwise, as the counterexample shows). -/
theorem claim_C9_marker_append (off : Dec) (segs segs' : List String)
    (h2 : 2 ≤ segs.length)
    (hm : containsSub (segs.headD "").data procMarker = false)
    (h : filterPlate off segs = .ok segs') :
    ∃ t0 ts, segs' = String.mk (t0 ++ procMarker) :: ts ∧
      ((t0 = [] ∨ t0.getLast? = some '\n') →
        ";TEMPOFFSETPROCESSED".data ∈ splitOnNL (t0 ++ procMarker)) := by
  unfold filterPlate at h
  have hel : plateEligible segs = true := by
    simp only [plateEligible, hm, Bool.not_false, Bool.and_true, decide_eq_true_eq]
    exact h2
  rw [if_pos hel] at h
  unfold procPlate at h
  cases hr : procSegs off (repairPlate segs) with
  | error e => rw [hr] at h; exact Except.noConfusion h
  | ok ss' =>
    rw [hr] at h
    simp only [Except.map, Except.ok.injEq] at h
    subst h
    obtain ⟨hlen, _⟩ := procSegs_ok off _ _ hr
    cases ss' with
    | nil =>
      exfalso
      have hge := le_trans h2 (repairPlate_length segs)
      rw [← hlen] at hge
      simp at hge
    | cons t0 ts =>
      exact ⟨t0.data, ts, rfl, fun hend => token_mem_split t0.data hend⟩

theorem claim_C9_marker_append_witness :
    ∃ t0 ts, ["a\n;TEMPOFFSETPROCESSED\n", "b\n"] = String.mk (t0 ++ procMarker) :: ts ∧
      ((t0 = [] ∨ t0.getLast? = some '\n') →
        ";TEMPOFFSETPROCESSED".data ∈ splitOnNL (t0 ++ procMarker)) :=
  claim_C9_marker_append ⟨1, 0⟩ ["a\n", "b\n"]
    ["a\n;TEMPOFFSETPROCESSED\n", "b\n"] (by decide) rfl rfl

/-- C4 counterexample: segment 1 containing *two* occurrences of the
layer marker.  `split(";LAYER:0\n")` yields three chunks but the code
keeps only `chunks[0]` and `chunks[1]` (lines 119-121), so the text from
the second occurrence on (`";LAYER:0\nc"`) is discarded: the segment
count does increase by one, but the concatenation of all segment text is
*not* preserved, refuting the claim's "including one containing more
than one occurrence of the marker". -/
theorem claim_C4_counterexample :
    repairPlate ["h", "a;LAYER:0\nb;LAYER:0\nc"] = ["h", "a", ";LAYER:0\nb"] ∧
    (repairPlate ["h", "a;LAYER:0\nb;LAYER:0\nc"]).length =
      (["h", "a;LAYER:0\nb;LAYER:0\nc"] : List String).length + 1 ∧
    concatSegs (repairPlate ["h", "a;LAYER:0\nb;LAYER:0\nc"]) ≠
      concatSegs ["h", "a;LAYER:0\nb;LAYER:0\nc"] :=
  ⟨rfl, rfl, by decide⟩

/-- C4 (amended): when segment 1 contains exactly one occurrence of the
layer marker — i.e. it decomposes as `a ++ ";LAYER:0\n" ++ b` and the
split yields exactly the chunks `[a, b]` — the repair replaces segment 1
by the text `a` before the marker and inserts a new segment
`";LAYER:0\n" ++ b` immediately after it; the segment count increases by
exactly one and the concatenation of all segment text is preserved.
(With more than one occurrence the text from the second occurrence on is
discarded, see the counterexample.) -/
theorem claim_C4_anomaly_repair (s0 s1 : String) (rest : List String) (a b : List Char)
    (hone : s1.data = a ++ layerMarker ++ b)
    (hsplit : splitOnLayer s1.data = [a, b]) :
    repairPlate (s0 :: s1 :: rest) =
      s0 :: String.mk a :: String.mk (layerMarker ++ b) :: rest ∧
    (repairPlate (s0 :: s1 :: rest)).length = (s0 :: s1 :: rest).length + 1 ∧
    concatSegs (repairPlate (s0 :: s1 :: rest)) = concatSegs (s0 :: s1 :: rest) := by
  have hcont : containsSub s1.data layerMarker = true := by
    rw [hone]; exact containsSub_infix a layerMarker b
  have hrp : repairPlate (s0 :: s1 :: rest) =
      s0 :: String.mk a :: String.mk (layerMarker ++ b) :: rest := by
    simp only [repairPlate, if_pos hcont, hsplit]
    rfl
  refine ⟨hrp, by rw [hrp]; simp, ?_⟩
  rw [hrp]
  show s0.data ++ (a ++ ((layerMarker ++ b) ++ concatSegs rest)) =
    s0.data ++ (s1.data ++ concatSegs rest)
  rw [hone]
  simp [List.append_assoc]

theorem claim_C4_anomaly_repair_witness :
    repairPlate ["h", "x;LAYER:0\ny"] =
      "h" :: String.mk "x".data :: String.mk (layerMarker ++ "y".data) :: [] ∧
    (repairPlate ["h", "x;LAYER:0\ny"]).length =
      (["h", "x;LAYER:0\ny"] : List String).length + 1 ∧
    concatSegs (repairPlate ["h", "x;LAYER:0\ny"]) = concatSegs ["h", "x;LAYER:0\ny"] :=
  claim_C4_anomaly_repair "h" "x;LAYER:0\ny" [] "x".data "y".data (by decide) rfl

end TempOffset
